import Mathlib

/-!
Shallow embedding of the maintainer-assignment core of the
`gitlab-odds-and-ends` webhook bot (the revision with the secondary
assignee-name lookup, the `ensureTotalMaintainers` stub and the author-name
placeholder: `maybeAssignMaintainer`, `getProjectMaintainers`, `mergeRequest`,
`notifyNewMR`, `ensureTotalMaintainers`).

External collaborators (the GitLab API client and the Slack client) are
modelled by an `Env` record of deterministic functions: the paginated member
listing is a function from a project id to the list of page-fetch results,
the user lookup is a function from a user id to a result, and the single
merge-request update that a call can issue has its outcome recorded in the
environment.  `rand.Intn n` is modelled by `env.rnd % n`, where `env.rnd` is
an arbitrary natural number fixed by the environment; every index below `n`
is realisable.  Side effects (merge-request update calls, chat sends) are
returned as explicit traces instead of being performed.
-/

namespace GitlabOddsAndEnds

/-- A Go `error` value, identified by its message string. -/
inductive GoError where
  | mk (msg : String)
deriving DecidableEq, Repr

/-- A project member (`gitlab.ProjectMember`): id, display name, access level. -/
structure Member where
  ID : Int
  Name : String
  AccessLevel : Int
deriving DecidableEq, Repr

/-- `gitlab.MaintainerPermissions` (= 40 in the GitLab access-level scale
Guest 10 < Reporter 20 < Developer 30 < Maintainer 40 < Owner 50). -/
def maintainerPermissions : Int := 40

/-- A GitLab user as returned by `Users.GetUser`. -/
structure User where
  ID : Int
  Name : String
deriving DecidableEq, Repr

/-- The merge-request webhook payload fields the core reads
(`mr.Project.ID`, `mr.ObjectAttributes.*`).  `assigneeID = 0` means
unassigned.  `assigneeName` is `ObjectAttributes.Assignee.Name`, which the
payload does not reliably carry. -/
structure MergeEvent where
  projectID : Int
  iid : Int
  action : String
  authorID : Int
  assigneeID : Int
  url : String
  targetName : String
  workInProgress : Bool
  assigneeName : String
deriving DecidableEq, Repr

def MR_ACTION_OPENED : String := "open"
def MR_ACTION_UPDATED : String := "update"
def MR_ACTION_APPROVED : String := "approved"
def MR_ACTION_MERGED : String := "merge"
def MR_ACTION_UNAPPROVED : String := "unapproved"
def MR_ACTION_CLOSED : String := "close"
def MR_ACTION_REOPENED : String := "reopen"

/-- One issued `MergeRequests.UpdateMergeRequest` call: the project id, the
merge-request iid, and the new assignee id passed in the options. -/
structure UpdateCall where
  projectID : Int
  iid : Int
  assigneeID : Int
deriving DecidableEq, Repr

/-- The result of one `ProjectMembers.ListProjectMembers` page fetch: either
an error, or a page of possibly-nil member pointers. -/
abbrev PageResult := Except GoError (List (Option Member))

/-- The deterministic external world one webhook request runs against. -/
structure Env where
  /-- Member-listing pages per project: requesting page `i` returns entry `i`
  of this list, and `Except.ok []` past its end (GitLab returns an empty page
  past the end of the listing). -/
  pages : Int → List PageResult
  /-- The value `rand.Intn n` is modelled as `rnd % n`. -/
  rnd : Nat
  /-- `Users.GetUser`. -/
  getUser : Int → Except GoError User
  /-- The outcome of the (at most one) `UpdateMergeRequest` call. -/
  updateResult : Option GoError

/-- The Go inner loop `for _, m := range members { if m == nil { break } ... }`
consumes members up to (not including) the first nil pointer. -/
def takeWhileSome : List (Option Member) → List Member
  | [] => []
  | none :: _ => []
  | some m :: rest => m :: takeWhileSome rest

/-- The pagination loop of `getProjectMaintainers`, one list entry per fetched
page.  Mirrors the Go control flow: break (returning the partial accumulator
together with the error) when a fetch failed; otherwise consume the page's
members up to the first nil, keep those with `AccessLevel >= Maintainer`, stop
when the page is shorter than the page size 100, else fetch the next page. -/
def goPages : List PageResult → List Member → List Member × Option GoError
  | [], acc => (acc, none)
  | Except.error e :: _, acc => (acc, some e)
  | Except.ok mems :: rest, acc =>
    let acc2 := acc ++ (takeWhileSome mems).filter
      (fun m => maintainerPermissions ≤ m.AccessLevel)
    if mems.length < 100 then (acc2, none) else goPages rest acc2

/-- `getProjectMaintainers gl id`: paginated listing of the project's direct
members with access level Maintainer or above. -/
def getProjectMaintainers (env : Env) (id : Int) : List Member × Option GoError :=
  goPages (env.pages id) []

/-- The message of the `fmt.Errorf` raised when the project has no maintainers. -/
def noMaintainersMsg : String := "no maintainers for repository, cannot assign a maintainer"

/-- What one call of `maybeAssignMaintainer` returns and does: the returned
name, the returned error, and the list of `UpdateMergeRequest` calls issued. -/
structure MAResult where
  name : String
  err : Option GoError
  updates : List UpdateCall
deriving DecidableEq, Repr

/-- The body of `maybeAssignMaintainer` after the `getProjectMaintainers`
call, taking that call's result as its last argument. -/
def assignFrom (env : Env) (mr : MergeEvent) : List Member × Option GoError → MAResult
  | (_, some e) => ⟨"", some e, []⟩
  | (maintainers, none) =>
    if h : maintainers.length = 0 then
      ⟨"", some (GoError.mk noMaintainersMsg), []⟩
    else
      let cand := maintainers.get
        ⟨env.rnd % maintainers.length, Nat.mod_lt env.rnd (Nat.pos_of_ne_zero h)⟩
      if mr.assigneeID = 0 then
        ⟨cand.Name, env.updateResult, [⟨mr.projectID, mr.iid, cand.ID⟩]⟩
      else if maintainers.any (fun m => m.ID = mr.assigneeID) then
        match env.getUser mr.assigneeID with
        | Except.ok u => ⟨u.Name, none, []⟩
        | Except.error e => ⟨"", some e, []⟩
      else
        ⟨cand.Name, env.updateResult, [⟨mr.projectID, mr.iid, cand.ID⟩]⟩

/-- `maybeAssignMaintainer gl mr`: resolve the maintainer set; if resolution
failed propagate the error; if the set is empty fail; otherwise pick a random
candidate, keep a current assignee that is a maintainer (resolving their
display name through `Users.GetUser`), and (re)assign the candidate in every
other case. -/
def maybeAssignMaintainer (env : Env) (mr : MergeEvent) : MAResult :=
  assignFrom env mr (getProjectMaintainers env mr.projectID)

/-- `ensureTotalMaintainers` is an unimplemented stub: its body is only
comments and `return errors.New("unimplemented")`; it performs no calls. -/
def ensureTotalMaintainers (_env : Env) (_mr : MergeEvent) (_totalReviewers : Int) :
    Option GoError :=
  some (GoError.mk "unimplemented")

/-- One Slack `SendMessage` of `msg` to `channel`. -/
structure NotifyCall where
  msg : String
  channel : String
deriving DecidableEq, Repr

/-- The author name used when `Users.GetUser` fails for the MR author. -/
def authorPlaceholder : String := "unknown(see logs for error)"

/-- The notification template of `notifyNewMR`. -/
def mrMessage (mr : MergeEvent) (author assignee : String) : String :=
  let wipStr := if mr.workInProgress then " WIP" else ""
  "New" ++ wipStr ++ " merge request in `" ++ mr.targetName ++ "` from " ++
    author ++ " has been assigned to " ++ assignee ++ ".  See " ++ mr.url ++
    " for details."

/-- `notifyNewMR`: resolve the author's display name (falling back to a
placeholder on lookup failure), build the message, and send it to every
requested Slack channel. -/
def notifyNewMR (env : Env) (mr : MergeEvent) (assignee : String)
    (slackChans : List String) : List NotifyCall :=
  let author := match env.getUser mr.authorID with
    | Except.ok u => u.Name
    | Except.error _ => authorPlaceholder
  slackChans.map (fun ch => ⟨mrMessage mr author assignee, ch⟩)

/-- What one `mergeRequest` handler run did: the update calls issued, and
`some sends` when `notifyNewMR` was invoked (with its sends), `none` when it
was not. -/
structure MRTrace where
  updates : List UpdateCall
  notified : Option (List NotifyCall)
deriving DecidableEq, Repr

/-- The `mergeRequest` handler: on the `reopen` (fallthrough) and `open`
actions run `maybeAssignMaintainer`; on its error log and return without
notifying; on success discard the `ensureTotalMaintainers` error and notify.
Every other action (known or not) is a no-op case. -/
def mergeRequest (env : Env) (mr : MergeEvent) (slackChans : List String) : MRTrace :=
  if mr.action = MR_ACTION_REOPENED ∨ mr.action = MR_ACTION_OPENED then
    let r := maybeAssignMaintainer env mr
    match r.err with
    | some _ => ⟨r.updates, none⟩
    | none =>
      let _ := ensureTotalMaintainers env mr 2
      ⟨r.updates, some (notifyNewMR env mr r.name slackChans)⟩
  else
    ⟨[], none⟩

/-- `mergeRequest` with the (discarded) `ensureTotalMaintainers` call removed,
for stating that the stub affects nothing. -/
def mergeRequestNoEtm (env : Env) (mr : MergeEvent) (slackChans : List String) : MRTrace :=
  if mr.action = MR_ACTION_REOPENED ∨ mr.action = MR_ACTION_OPENED then
    let r := maybeAssignMaintainer env mr
    match r.err with
    | some _ => ⟨r.updates, none⟩
    | none => ⟨r.updates, some (notifyNewMR env mr r.name slackChans)⟩
  else
    ⟨[], none⟩

/-- Replaying a trace of update calls over an initial assignee id: the last
issued update determines the merge request's current assignee. -/
def eventAfter (mr : MergeEvent) (us : List UpdateCall) : MergeEvent :=
  { mr with assigneeID := us.foldl (fun _ u => u.assigneeID) mr.assigneeID }

/-! ## Concrete environments used by the witnesses -/

def alice : Member := ⟨1, "Alice", 40⟩

def bob : Member := ⟨2, "Bob", 50⟩

def dave : Member := ⟨3, "Dave", 30⟩

def envW1 : Env where
  pages := fun _ => [Except.ok [some alice, some dave, some bob]]
  rnd := 0
  getUser := fun uid =>
    if uid = 2 then Except.ok ⟨2, "Bob"⟩ else Except.error (GoError.mk "404 not found")
  updateResult := none

def mrW1 : MergeEvent := ⟨42, 7, "open", 9, 2, "http://mr/7", "repo", false, ""⟩

/-! ## Assignment-engine theorems -/

/-- C1: for an event whose current assignee is a member of the maintainer set,
`maybeAssignMaintainer` issues no update call; running it a second time on the
event as left behind by the first call (no updates replayed) again issues no
update call and returns the same name. -/
theorem maybeAssignMaintainer_idempotent (env : Env) (mr : MergeEvent) (ms : List Member)
    (hms : getProjectMaintainers env mr.projectID = (ms, none))
    (h0 : mr.assigneeID ≠ 0)
    (hin : ∃ m ∈ ms, m.ID = mr.assigneeID) :
    (maybeAssignMaintainer env mr).updates = [] ∧
    (maybeAssignMaintainer env
      (eventAfter mr (maybeAssignMaintainer env mr).updates)).updates = [] ∧
    (maybeAssignMaintainer env
      (eventAfter mr (maybeAssignMaintainer env mr).updates)).name
      = (maybeAssignMaintainer env mr).name := by
  have hlen : ¬ ms.length = 0 := by
    rcases hin with ⟨m, hm, _⟩
    intro h
    rw [List.length_eq_zero] at h
    subst h
    exact absurd hm (List.not_mem_nil m)
  have hany : (ms.any fun m => decide (m.ID = mr.assigneeID)) = true := by
    rw [List.any_eq_true]
    rcases hin with ⟨m, hm, he⟩
    exact ⟨m, hm, by simpa using he⟩
  have h1 : (maybeAssignMaintainer env mr).updates = [] := by
    unfold maybeAssignMaintainer
    rw [hms]
    cases hgu : env.getUser mr.assigneeID <;>
      simp [assignFrom, hlen, h0, hany, hgu]
  refine ⟨h1, ?_, ?_⟩
  · rw [h1]
    exact h1
  · rw [h1]
    rfl

/-- C1 witness. -/
theorem maybeAssignMaintainer_idempotent_witness :
    (maybeAssignMaintainer envW1 mrW1).updates = [] ∧
    (maybeAssignMaintainer envW1
      (eventAfter mrW1 (maybeAssignMaintainer envW1 mrW1).updates)).updates = [] ∧
    (maybeAssignMaintainer envW1
      (eventAfter mrW1 (maybeAssignMaintainer envW1 mrW1).updates)).name
      = (maybeAssignMaintainer envW1 mrW1).name :=
  maybeAssignMaintainer_idempotent envW1 mrW1 [alice, bob]
    (by decide) (by decide) (by decide)

/-- C2: for an event with a non-zero assignee id belonging to the maintainer
set, `maybeAssignMaintainer` issues no update call and returns the display
name that the secondary `Users.GetUser` lookup resolves for the current
assignee (not the random candidate, not the payload's blank name). -/
theorem maybeAssignMaintainer_keepsAssignee (env : Env) (mr : MergeEvent)
    (ms : List Member) (u : User)
    (hms : getProjectMaintainers env mr.projectID = (ms, none))
    (h0 : mr.assigneeID ≠ 0)
    (hin : ∃ m ∈ ms, m.ID = mr.assigneeID)
    (hu : env.getUser mr.assigneeID = Except.ok u) :
    maybeAssignMaintainer env mr = ⟨u.Name, none, []⟩ := by
  have hlen : ¬ ms.length = 0 := by
    rcases hin with ⟨m, hm, _⟩
    intro h
    rw [List.length_eq_zero] at h
    subst h
    exact absurd hm (List.not_mem_nil m)
  have hany : (ms.any fun m => decide (m.ID = mr.assigneeID)) = true := by
    rw [List.any_eq_true]
    rcases hin with ⟨m, hm, he⟩
    exact ⟨m, hm, by simpa using he⟩
  unfold maybeAssignMaintainer
  rw [hms]
  simp [assignFrom, hlen, h0, hany, hu]

/-- C2 witness: the current assignee Bob (id 2, an owner) stays in place and
his looked-up name is returned, although the random candidate is Alice. -/
theorem maybeAssignMaintainer_keepsAssignee_witness :
    maybeAssignMaintainer envW1 mrW1 = ⟨"Bob", none, []⟩ :=
  maybeAssignMaintainer_keepsAssignee envW1 mrW1 [alice, bob] ⟨2, "Bob"⟩
    (by decide) (by decide) (by decide) rfl

/-- C3: for an event whose assignee id is not in the (non-empty) resolved
maintainer set — including the unassigned id 0 — exactly one update call is
issued, its new assignee is a member of the maintainer set (the random
candidate), and that candidate's name is returned. -/
theorem maybeAssignMaintainer_reassigns (env : Env) (mr : MergeEvent) (ms : List Member)
    (hms : getProjectMaintainers env mr.projectID = (ms, none))
    (hne : ms ≠ [])
    (habs : ∀ m ∈ ms, m.ID ≠ mr.assigneeID) :
    ∃ m ∈ ms, maybeAssignMaintainer env mr =
      ⟨m.Name, env.updateResult, [⟨mr.projectID, mr.iid, m.ID⟩]⟩ := by
  have hlen : ¬ ms.length = 0 := fun h => hne (List.length_eq_zero.mp h)
  refine ⟨ms.get ⟨env.rnd % ms.length, Nat.mod_lt env.rnd (Nat.pos_of_ne_zero hlen)⟩,
    List.get_mem ms _ _, ?_⟩
  unfold maybeAssignMaintainer
  rw [hms]
  by_cases h0 : mr.assigneeID = 0
  · simp [assignFrom, hlen, h0]
  · have hany : (ms.any fun m => decide (m.ID = mr.assigneeID)) = false := by
      rw [List.any_eq_false]
      intro m hm
      simpa using habs m hm
    simp [assignFrom, hlen, h0, hany]

/-- C3 witness: an unassigned event (assignee id 0) gets the random candidate
Alice assigned through exactly one update call. -/
theorem maybeAssignMaintainer_reassigns_witness :
    ∃ m ∈ [alice, bob], maybeAssignMaintainer envW1
        { mrW1 with assigneeID := 0 } =
      ⟨m.Name, envW1.updateResult, [⟨42, 7, m.ID⟩]⟩ :=
  maybeAssignMaintainer_reassigns envW1 { mrW1 with assigneeID := 0 } [alice, bob]
    (by decide) (by decide) (by decide)

/-- `true` when the entry is a nil pointer or a member below Maintainer. -/
def belowMaintainer : Option Member → Bool
  | none => true
  | some m => decide (m.AccessLevel < maintainerPermissions)

theorem mem_takeWhileSome {m : Member} :
    ∀ {l : List (Option Member)}, m ∈ takeWhileSome l → some m ∈ l := by
  intro l
  induction l with
  | nil => simp [takeWhileSome]
  | cons o rest ih =>
    cases o with
    | none =>
      intro h
      exact absurd h (by simp [takeWhileSome])
    | some x =>
      intro h
      rw [takeWhileSome] at h
      rcases List.mem_cons.mp h with h1 | h2
      · exact h1 ▸ List.mem_cons_self _ _
      · exact List.mem_cons_of_mem _ (ih h2)

theorem goPages_none_of_below :
    ∀ (l : List PageResult) (acc : List Member),
      (∀ pr ∈ l, ∃ mems, pr = Except.ok mems ∧ ∀ om ∈ mems, belowMaintainer om = true) →
      goPages l acc = (acc, none) := by
  intro l
  induction l with
  | nil =>
    intro acc _
    rfl
  | cons pr rest ih =>
    intro acc hall
    obtain ⟨mems, hok, hbelow⟩ := hall pr (List.mem_cons_self _ _)
    subst hok
    have hfil : (takeWhileSome mems).filter
        (fun m => maintainerPermissions ≤ m.AccessLevel) = [] := by
      rw [List.filter_eq_nil_iff]
      intro m hm
      have hb := hbelow (some m) (mem_takeWhileSome hm)
      simp [belowMaintainer] at hb
      simp
      omega
    by_cases hlen : mems.length < 100
    · simp [goPages, hfil, hlen]
    · simp only [goPages, hfil, List.append_nil, if_neg hlen]
      exact ih acc (fun pr hpr => hall pr (List.mem_cons_of_mem _ hpr))

/-- C4: when every entry of the member listing is a nil pointer or a member
below Maintainer, `getProjectMaintainers` returns the empty list without an
error, and `maybeAssignMaintainer` then fails with the no-maintainers error
and issues no update call. -/
theorem maybeAssignMaintainer_noMaintainers (env : Env) (mr : MergeEvent)
    (mpages : List (List (Option Member)))
    (hpages : env.pages mr.projectID = mpages.map Except.ok)
    (hno : ∀ om ∈ mpages.flatten, belowMaintainer om = true) :
    getProjectMaintainers env mr.projectID = ([], none) ∧
    maybeAssignMaintainer env mr = ⟨"", some (GoError.mk noMaintainersMsg), []⟩ := by
  have hg : getProjectMaintainers env mr.projectID = ([], none) := by
    unfold getProjectMaintainers
    rw [hpages]
    apply goPages_none_of_below
    intro pr hpr
    obtain ⟨mems, hmem, hpr2⟩ := List.mem_map.mp hpr
    exact ⟨mems, hpr2.symm, fun om hom => hno om (List.mem_flatten.mpr ⟨mems, hmem, hom⟩)⟩
  refine ⟨hg, ?_⟩
  unfold maybeAssignMaintainer
  rw [hg]
  rfl

def envW4 : Env where
  pages := fun _ => [[some dave, none]].map Except.ok
  rnd := 0
  getUser := fun _ => Except.error (GoError.mk "404 not found")
  updateResult := none

/-- C4 witness: a project whose only listed member is a developer. -/
theorem maybeAssignMaintainer_noMaintainers_witness :
    getProjectMaintainers envW4 mrW1.projectID = ([], none) ∧
    maybeAssignMaintainer envW4 mrW1 = ⟨"", some (GoError.mk noMaintainersMsg), []⟩ :=
  maybeAssignMaintainer_noMaintainers envW4 mrW1 [[some dave, none]] rfl (by decide)

/-! ## Pagination theorems -/

theorem takeWhileSome_map_some (p : List Member) : takeWhileSome (p.map some) = p := by
  induction p with
  | nil => rfl
  | cons m t ih => simp [takeWhileSome, ih]

theorem goPages_cons_ok (mems : List (Option Member)) (rest : List PageResult)
    (acc : List Member) :
    goPages (Except.ok mems :: rest) acc =
      if mems.length < 100 then
        (acc ++ (takeWhileSome mems).filter
          (fun m => maintainerPermissions ≤ m.AccessLevel), none)
      else
        goPages rest (acc ++ (takeWhileSome mems).filter
          (fun m => maintainerPermissions ≤ m.AccessLevel)) := by
  rw [goPages]

theorem goPages_append (l : List PageResult) :
    ∀ acc, goPages l acc = (acc ++ (goPages l []).1, (goPages l []).2) := by
  induction l with
  | nil =>
    intro acc
    simp [goPages]
  | cons pr rest ih =>
    intro acc
    cases pr with
    | error e => simp [goPages]
    | ok mems =>
      rw [goPages_cons_ok, goPages_cons_ok]
      set fil := (takeWhileSome mems).filter
        (fun m => maintainerPermissions ≤ m.AccessLevel) with hfil
      by_cases hlen : mems.length < 100
      · rw [if_pos hlen, if_pos hlen]
        simp only [List.nil_append]
      · rw [if_neg hlen, if_neg hlen]
        simp only [List.nil_append]
        rw [ih (acc ++ fil), ih fil]
        simp [List.append_assoc]

theorem flatten_map_filter (f : Member → Bool) (mpages : List (List Member)) :
    (mpages.map (fun p => p.filter f)).flatten = mpages.flatten.filter f := by
  induction mpages with
  | nil => rfl
  | cons p rest ih =>
    rw [List.map_cons, List.flatten_cons, List.flatten_cons, List.filter_append, ih]

/-- The shape `getProjectMaintainers` pagination assumes of a listing split
into pages of the fixed page size 100: every page but the last is full, the
last is short. -/
def wellPaged : List (List Member) → Bool
  | [] => true
  | [p] => decide (p.length < 100)
  | p :: rest => decide (p.length = 100) && wellPaged rest

theorem goPages_of_wellPaged (mpages : List (List Member))
    (hwp : wellPaged mpages = true) :
    goPages (mpages.map (fun p => Except.ok (p.map some))) [] =
      ((mpages.map (fun p => p.filter
        (fun m => maintainerPermissions ≤ m.AccessLevel))).flatten, none) := by
  induction mpages with
  | nil => rfl
  | cons p rest ih =>
    cases rest with
    | nil =>
      have hl : p.length < 100 := by simpa [wellPaged] using hwp
      rw [List.map_cons, List.map_nil, goPages_cons_ok, takeWhileSome_map_some,
        if_pos (by simpa using hl)]
      simp
    | cons q rest2 =>
      simp only [wellPaged, Bool.and_eq_true, decide_eq_true_eq] at hwp
      have hnl : ¬ (p.map some).length < 100 := by simp [hwp.1]
      rw [List.map_cons, goPages_cons_ok, takeWhileSome_map_some, if_neg hnl,
        goPages_append, ih hwp.2]
      simp

/-- C5: for a listing split across pages of size 100 (all pages full except
a short last one), `getProjectMaintainers` returns exactly the concatenation,
over all pages, of the members with access level Maintainer or above; when
the listing has no duplicate member, neither does the result. -/
theorem getProjectMaintainers_pagination (env : Env) (id : Int)
    (mpages : List (List Member))
    (hpages : env.pages id = mpages.map (fun p => Except.ok (p.map some)))
    (hwp : wellPaged mpages = true) :
    getProjectMaintainers env id =
      ((mpages.map (fun p => p.filter
        (fun m => maintainerPermissions ≤ m.AccessLevel))).flatten, none) ∧
    (mpages.flatten.Nodup →
      ((mpages.map (fun p => p.filter
        (fun m => maintainerPermissions ≤ m.AccessLevel))).flatten).Nodup) := by
  constructor
  · unfold getProjectMaintainers
    rw [hpages]
    exact goPages_of_wellPaged mpages hwp
  · intro hnd
    rw [flatten_map_filter]
    exact hnd.filter _

def page1W : List Member := (List.range 100).map (fun i => ⟨(i : Int), "M", 40⟩)

def erin : Member := ⟨200, "Erin", 40⟩

def mpagesW5 : List (List Member) := [page1W, [erin, dave]]

def envW5 : Env where
  pages := fun _ => mpagesW5.map (fun p => Except.ok (p.map some))
  rnd := 0
  getUser := fun _ => Except.error (GoError.mk "404 not found")
  updateResult := none

/-- C5 witness: a full page of 100 maintainers followed by a short page. -/
theorem getProjectMaintainers_pagination_witness :
    getProjectMaintainers envW5 1 =
      ((mpagesW5.map (fun p => p.filter
        (fun m => maintainerPermissions ≤ m.AccessLevel))).flatten, none) ∧
    ((mpagesW5.map (fun p => p.filter
      (fun m => maintainerPermissions ≤ m.AccessLevel))).flatten).Nodup :=
  ⟨(getProjectMaintainers_pagination envW5 1 mpagesW5 rfl (by decide)).1,
   (getProjectMaintainers_pagination envW5 1 mpagesW5 rfl (by decide)).2 (by decide)⟩

/-! ## Behaviour at a nil member entry -/

def nilPage : List (Option Member) := none :: List.replicate 99 (some dave)

def envC6 : Env where
  pages := fun _ => [Except.ok nilPage, Except.ok [some bob]]
  rnd := 0
  getUser := fun _ => Except.error (GoError.mk "404 not found")
  updateResult := none

/-- C6 counterexample: page 0 has 100 entries with a nil entry first, page 1
holds the owner Bob.  Were a nil entry end-of-data (no further page fetched),
the result would be `([], none)`; instead Bob — who sits on the page after
the nil-carrying one — is returned, so the next page was fetched. -/
theorem getProjectMaintainers_nilStops_counterexample :
    none ∈ nilPage ∧ nilPage.length = 100 ∧ some bob ∉ nilPage ∧
    getProjectMaintainers envC6 1 = ([bob], none) := by decide

theorem takeWhileSome_eq_takeWhile :
    ∀ (l : List (Option Member)),
      takeWhileSome l = (l.takeWhile (fun om => om.isSome)).reduceOption := by
  intro l
  induction l with
  | nil => rfl
  | cons o rest ih =>
    cases o with
    | none => rfl
    | some m => simp [takeWhileSome, List.takeWhile_cons, ih]

/-- C6 amended: a nil entry in a page stops consumption of that page's
remaining members (only entries before the first nil are kept) and raises no
error, but it does not end pagination: the next page is still fetched
whenever the page has the full page size 100; only a page shorter than 100
stops pagination. -/
theorem goPages_nilEntry (mems : List (Option Member)) (rest : List PageResult)
    (acc : List Member) (hnil : none ∈ mems) :
    takeWhileSome mems = (mems.takeWhile (fun om => om.isSome)).reduceOption ∧
    (mems.length < 100 →
      goPages (Except.ok mems :: rest) acc =
        (acc ++ (takeWhileSome mems).filter
          (fun m => maintainerPermissions ≤ m.AccessLevel), none)) ∧
    (¬ mems.length < 100 →
      goPages (Except.ok mems :: rest) acc =
        goPages rest (acc ++ (takeWhileSome mems).filter
          (fun m => maintainerPermissions ≤ m.AccessLevel))) := by
  refine ⟨takeWhileSome_eq_takeWhile mems, ?_, ?_⟩
  · intro h
    rw [goPages_cons_ok, if_pos h]
  · intro h
    rw [goPages_cons_ok, if_neg h]

def shortNilPage : List (Option Member) := [some alice, none, some bob]

/-- C6 amended witness: a short page with a nil stops pagination; a full page
with a nil continues to the next page. -/
theorem goPages_nilEntry_witness :
    goPages [Except.ok shortNilPage] [] =
      ([] ++ (takeWhileSome shortNilPage).filter
        (fun m => maintainerPermissions ≤ m.AccessLevel), none) ∧
    goPages [Except.ok nilPage, Except.ok [some bob]] [] =
      goPages [Except.ok [some bob]]
        ([] ++ (takeWhileSome nilPage).filter
          (fun m => maintainerPermissions ≤ m.AccessLevel)) :=
  ⟨(goPages_nilEntry shortNilPage [] [] (by decide)).2.1 (by decide),
   (goPages_nilEntry nilPage [Except.ok [some bob]] [] (by decide)).2.2 (by decide)⟩

/-! ## Event-router theorems -/

/-- C7: every action other than `open` and `reopen` yields an empty trace —
no update call, no notification — and the handler still returns normally;
`open` and `reopen` both run the assignment engine, whose update calls become
the handler's. -/
theorem mergeRequest_actionRouting (env : Env) (mr : MergeEvent) (chans : List String) :
    (mr.action ≠ MR_ACTION_OPENED → mr.action ≠ MR_ACTION_REOPENED →
      mergeRequest env mr chans = ⟨[], none⟩) ∧
    (mr.action = MR_ACTION_OPENED ∨ mr.action = MR_ACTION_REOPENED →
      (mergeRequest env mr chans).updates = (maybeAssignMaintainer env mr).updates) := by
  constructor
  · intro h1 h2
    have hcond : ¬ (mr.action = MR_ACTION_REOPENED ∨ mr.action = MR_ACTION_OPENED) :=
      fun hc => hc.elim h2 h1
    simp [mergeRequest, hcond]
  · intro h
    have hcond : mr.action = MR_ACTION_REOPENED ∨ mr.action = MR_ACTION_OPENED := h.symm
    cases herr : (maybeAssignMaintainer env mr).err <;>
      simp [mergeRequest, hcond, herr]

/-- C7 witness: an `approved` event leaves an empty trace; an `open` event
issues the engine's update calls. -/
theorem mergeRequest_actionRouting_witness :
    mergeRequest envW1 { mrW1 with action := "approved" } ["C9"] = ⟨[], none⟩ ∧
    (mergeRequest envW1 mrW1 ["C9"]).updates = (maybeAssignMaintainer envW1 mrW1).updates :=
  ⟨(mergeRequest_actionRouting envW1 { mrW1 with action := "approved" } ["C9"]).1
      (by decide) (by decide),
   (mergeRequest_actionRouting envW1 mrW1 ["C9"]).2 (Or.inl rfl)⟩

/-- C8: on `open`/`reopen`, an assignment-engine error suppresses the
notification; conversely the notifier runs only when the engine reported no
error. -/
theorem mergeRequest_notifyGate (env : Env) (mr : MergeEvent) (chans : List String) :
    (mr.action = MR_ACTION_OPENED ∨ mr.action = MR_ACTION_REOPENED →
      (maybeAssignMaintainer env mr).err ≠ none →
      (mergeRequest env mr chans).notified = none) ∧
    (∀ calls, (mergeRequest env mr chans).notified = some calls →
      (maybeAssignMaintainer env mr).err = none) := by
  constructor
  · intro h herr
    have hcond : mr.action = MR_ACTION_REOPENED ∨ mr.action = MR_ACTION_OPENED := h.symm
    cases he : (maybeAssignMaintainer env mr).err with
    | none => exact absurd he herr
    | some e => simp [mergeRequest, hcond, he]
  · intro calls hcalls
    by_cases hcond : mr.action = MR_ACTION_REOPENED ∨ mr.action = MR_ACTION_OPENED
    · cases he : (maybeAssignMaintainer env mr).err with
      | none => rfl
      | some e =>
        exfalso
        simp [mergeRequest, hcond, he] at hcalls
    · exfalso
      simp [mergeRequest, hcond] at hcalls

/-- C8 witness: with no maintainers the engine fails and nothing is notified;
with a valid assignment the engine succeeds and the notifier runs. -/
theorem mergeRequest_notifyGate_witness :
    (mergeRequest envW4 mrW1 ["C9"]).notified = none ∧
    (maybeAssignMaintainer envW1 mrW1).err = none :=
  ⟨(mergeRequest_notifyGate envW4 mrW1 ["C9"]).1 (Or.inl rfl) (by decide),
   (mergeRequest_notifyGate envW1 mrW1 []).2 [] (by decide)⟩

/-! ## Notifier theorems -/

/-- C9: when the author's `Users.GetUser` lookup fails, `notifyNewMR` still
builds the message — with the marked placeholder as the author name — and
sends it to every requested channel. -/
theorem notifyNewMR_authorFallback (env : Env) (mr : MergeEvent) (assignee : String)
    (chans : List String) (e : GoError)
    (hu : env.getUser mr.authorID = Except.error e) :
    notifyNewMR env mr assignee chans =
      chans.map (fun ch => ⟨mrMessage mr authorPlaceholder assignee, ch⟩) := by
  unfold notifyNewMR
  rw [hu]

/-- C9 witness. -/
theorem notifyNewMR_authorFallback_witness :
    notifyNewMR envW4 mrW1 "Alice" ["C1", "C2"] =
      ["C1", "C2"].map (fun ch => ⟨mrMessage mrW1 authorPlaceholder "Alice", ch⟩) :=
  notifyNewMR_authorFallback envW4 mrW1 "Alice" ["C1", "C2"]
    (GoError.mk "404 not found") rfl

/-- C10: `ensureTotalMaintainers` always returns the non-nil "unimplemented"
error and does nothing else, and — its error being discarded at its only call
site — the handler behaves exactly as it would without the call. -/
theorem ensureTotalMaintainers_stub (env : Env) (mr : MergeEvent) (n : Int)
    (chans : List String) :
    ensureTotalMaintainers env mr n = some (GoError.mk "unimplemented") ∧
    mergeRequest env mr chans = mergeRequestNoEtm env mr chans :=
  ⟨rfl, rfl⟩

end GitlabOddsAndEnds
